import Mathlib

/-!
# Verification of the 2D-Turbulence-Python pseudo-spectral solver

Shallow embedding of `src/fluid.py` (class `Fluid`): grid and wavenumber
setup, real-input 2D Fourier transforms, Poisson inversion, dealiased
convection, diffusion, the CFL-adaptive Runge-Kutta stepping loop, the
spectral filter, and the named-initial-condition dispatch.

Modelling conventions:
* floating-point scalars and arrays are modelled as exact real / complex
  valued quantities (functions out of `ZMod n` / `Fin nk` index types);
* integer-valued grid data (wavenumbers, shapes, index masks) is modelled
  computably over `ℤ` / `ℕ` so that concrete instances evaluate;
* numpy's `rfft2` / `irfft2` are modelled as exact discrete Fourier
  transforms (the standard `exp (-2πi jk/N)` kernel with no forward
  normalisation and `1/N` inverse normalisation, matching numpy's default
  `norm="backward"`), with the half-spectrum Hermitian extension used by
  the real-input variants made explicit.
-/

open scoped BigOperators

namespace Turb2D

/-! ## Wavenumber grid (`fluid.py` lines 42-47, 61-65)

`self.kx = np.fft.fftfreq(self.nx)*self.nx` produces the integer DFT
frequencies `0, 1, …, ⌈nx/2⌉-1, -⌊nx/2⌋, …, -1`. -/

/-- `np.fft.fftfreq(n) * n` at index `m`: the integer DFT frequency,
equal to `m` for `m < ⌈n/2⌉` and to `m - n` otherwise. -/
def kfreq (n m : ℕ) : ℤ :=
  if m < (n + 1) / 2 then (m : ℤ) else (m : ℤ) - n

/-- Half-spectrum length `nk = ny//2 + 1` (`fluid.py` line 32). -/
def nkOf (ny : ℕ) : ℕ := ny / 2 + 1

/-- Shape of the array built by
`self.k2 = self.kx[:self.nk]**2 + self.ky[:,np.newaxis]**2`
(`fluid.py` line 64): broadcasting a column of length `ny` (from `ky`)
against a row of length `min nk nx` (the slice `kx[:nk]` of the
length-`nx` array `kx`) yields shape `(ny, min nk nx)`. -/
def k2Shape (nx ny : ℕ) : ℕ × ℕ := (ny, min (nkOf ny) nx)

/-- Entry `[i, j]` of `self.k2` (`fluid.py` line 64): row index `i` walks
`ky` (length `ny`), column index `j` walks the slice `kx[:nk]`. -/
def k2val (nx ny : ℕ) (i j : ℕ) : ℤ := kfreq nx j ^ 2 + kfreq ny i ^ 2

/-- `kfreq` vanishes only at index `0` (within range). -/
lemma kfreq_eq_zero_iff {n m : ℕ} (hm : m < n) : kfreq n m = 0 ↔ m = 0 := by
  unfold kfreq
  split <;> omega

/-- A sum of two integer squares vanishes iff both summands do. -/
lemma sq_add_sq_eq_zero_iff (a b : ℤ) : a ^ 2 + b ^ 2 = 0 ↔ a = 0 ∧ b = 0 := by
  constructor
  · intro h
    have ha : a ^ 2 = 0 ∧ b ^ 2 = 0 :=
      (add_eq_zero_iff_of_nonneg (sq_nonneg a) (sq_nonneg b)).mp h
    exact ⟨by nlinarith [ha.1], by nlinarith [ha.2]⟩
  · rintro ⟨rfl, rfl⟩; ring

/-- C7 (counterexample). The claim asserts that for every `nx, ny ≥ 4` the
`k2` array has shape `(nx, nk)` with `nk = ny/2 + 1`.  On the rectangular
grid `nx = 4, ny = 8` the source expression
`self.kx[:self.nk]**2 + self.ky[:,np.newaxis]**2` broadcasts a length-8
column (`ky`) against the length-4 slice `kx[:5]` of the length-4 array
`kx`, producing shape `(8, 4)`, not the claimed `(4, 5)`. -/
theorem k2_shape_counterexample : k2Shape 4 8 ≠ (4, nkOf 8) := by decide

/-- C7 (amended: square grids `nx = ny`).  For every `n ≥ 4`, the `k2`
array built by the solver on an `n × n` grid has shape `(n, nk)` with
`nk = n/2 + 1`, its entries are `k2[i,j] = kx[i]^2 + ky[j]^2` over the
half-spectrum grid, and it vanishes at exactly one location, the zero
wavenumber `i = 0, j = 0`. -/
theorem k2_square_spec (n : ℕ) (hn : 4 ≤ n) :
    k2Shape n n = (n, nkOf n) ∧
    (∀ i j, i < n → j < nkOf n →
      k2val n n i j = kfreq n i ^ 2 + kfreq n j ^ 2) ∧
    (∀ i j, i < n → j < nkOf n → (k2val n n i j = 0 ↔ i = 0 ∧ j = 0)) := by
  refine ⟨?_, ?_, ?_⟩
  · simp only [k2Shape, nkOf, Prod.mk.injEq, true_and]
    omega
  · intro i j _ _
    simp only [k2val]; ring
  · intro i j hi hj
    have hj' : j < n := by
      simp only [nkOf] at hj; omega
    rw [k2val, sq_add_sq_eq_zero_iff, kfreq_eq_zero_iff hj', kfreq_eq_zero_iff hi]
    tauto

/-- C7 witness: the amended statement instantiated on the `8 × 8` grid. -/
theorem k2_square_spec_witness :
    k2Shape 8 8 = (8, nkOf 8) ∧
    (∀ i j, i < 8 → j < nkOf 8 →
      k2val 8 8 i j = kfreq 8 i ^ 2 + kfreq 8 j ^ 2) ∧
    (∀ i j, i < 8 → j < nkOf 8 → (k2val 8 8 i j = 0 ↔ i = 0 ∧ j = 0)) :=
  k2_square_spec 8 (by decide)

/-! ## Discrete Fourier transforms (`fluid.py` lines 126-131)

`w_to_wh` is `np.fft.rfft2(w)` (real-input forward transform, half
spectrum along the last axis); `wh_to_w` is `np.fft.irfft2(wh)` with
numpy's default output length `2·(mc−1)` on the last axis. -/

/-- numpy `fft` along one axis (default `norm="backward"`):
`X[k] = Σ_j x[j] · exp(-2πi·j·k/N)`, no forward normalisation. -/
noncomputable def fft1 {N : ℕ} [NeZero N] (x : ZMod N → ℂ) (k : ZMod N) : ℂ :=
  ∑ j : ZMod N,
    Complex.exp (-(2 * Real.pi * Complex.I * (j.val * k.val) / N)) * x j

/-- numpy `ifft` along one axis:
`x[m] = (1/N) · Σ_k X[k] · exp(2πi·k·m/N)`. -/
noncomputable def ifft1 {N : ℕ} [NeZero N] (X : ZMod N → ℂ) (m : ZMod N) : ℂ :=
  (N : ℂ)⁻¹ *
    ∑ j : ZMod N,
      Complex.exp (2 * Real.pi * Complex.I * (j.val * m.val) / N) * X j

/-- The forward kernel is the standard additive character of `ZMod N`. -/
lemma exp_kernel_neg {N : ℕ} [NeZero N] (j k : ZMod N) :
    Complex.exp (-(2 * Real.pi * Complex.I * (j.val * k.val) / N))
      = ZMod.stdAddChar (-(j * k)) := by
  have hc : ((-(j.val * k.val : ℤ) : ℤ) : ZMod N) = -(j * k) := by
    push_cast
    simp [ZMod.natCast_val, ZMod.cast_id]
  rw [← hc, ZMod.stdAddChar_coe]
  congr 1
  push_cast
  ring

/-- The inverse kernel is the standard additive character of `ZMod N`. -/
lemma exp_kernel_pos {N : ℕ} [NeZero N] (j k : ZMod N) :
    Complex.exp (2 * Real.pi * Complex.I * (j.val * k.val) / N)
      = ZMod.stdAddChar (j * k) := by
  have hc : (((j.val * k.val : ℤ) : ℤ) : ZMod N) = j * k := by
    push_cast
    simp [ZMod.natCast_val, ZMod.cast_id]
  rw [← hc, ZMod.stdAddChar_coe]
  congr 1
  push_cast
  ring

/-- `fft1` written through the additive character. -/
lemma fft1_apply_char {N : ℕ} [NeZero N] (x : ZMod N → ℂ) (k : ZMod N) :
    fft1 x k = ∑ j : ZMod N, ZMod.stdAddChar (-(j * k)) * x j := by
  unfold fft1
  exact Finset.sum_congr rfl fun j _ => by rw [exp_kernel_neg]

/-- `fft1` agrees with Mathlib's discrete Fourier transform on `ZMod N`. -/
lemma fft1_eq_dft {N : ℕ} [NeZero N] (x : ZMod N → ℂ) :
    fft1 x = ZMod.dft x := by
  funext k
  rw [fft1_apply_char, ZMod.dft_apply]
  exact Finset.sum_congr rfl fun j _ => by rw [smul_eq_mul]

/-- `ifft1` agrees with the inverse of Mathlib's discrete Fourier
transform on `ZMod N`. -/
lemma ifft1_eq_dft_symm {N : ℕ} [NeZero N] (X : ZMod N → ℂ) :
    ifft1 X = ZMod.dft.symm X := by
  funext m
  rw [ZMod.invDFT_apply, smul_eq_mul]
  unfold ifft1
  congr 1
  exact Finset.sum_congr rfl fun j _ => by rw [exp_kernel_pos, smul_eq_mul]

/-- 1-D Fourier inversion: `ifft(fft x) = x`. -/
lemma ifft1_fft1 {N : ℕ} [NeZero N] (x : ZMod N → ℂ) :
    ifft1 (fft1 x) = x := by
  rw [fft1_eq_dft, ifft1_eq_dft_symm]
  exact ZMod.dft.symm_apply_apply x

/-- numpy `rfft`: the stored half spectrum (`N/2 + 1` bins) of the full
transform of a real input. -/
noncomputable def rfft1 {N : ℕ} [NeZero N] (x : ZMod N → ℝ) (k : Fin (N / 2 + 1)) : ℂ :=
  fft1 (fun j => (x j : ℂ)) ((k.val : ZMod N))

/-- Hermitian extension used by numpy `irfft` on a length-`n` output:
bins `k ≤ n/2` are read from the stored half spectrum (zero-padded if the
input is shorter), upper bins are the mirrored conjugates. -/
noncomputable def hermBin (n : ℕ) {mc : ℕ} [NeZero n] (X : Fin mc → ℂ) (k : ZMod n) : ℂ :=
  if _h : k.val ≤ n / 2 then
    if h2 : k.val < mc then X ⟨k.val, h2⟩ else 0
  else
    if h3 : n - k.val < mc then (starRingEnd ℂ) (X ⟨n - k.val, h3⟩) else 0

/-- numpy `irfft` with explicit output length `n`: the real part of the
inverse transform of the Hermitian extension. -/
noncomputable def irfft1 (n : ℕ) [NeZero n] {mc : ℕ} (X : Fin mc → ℂ) (m : ZMod n) : ℝ :=
  (ifft1 (hermBin n X) m).re

/-- numpy's default output length of `irfft` for an input of `mc` bins
(`wh_to_w` passes no explicit length, `fluid.py` line 131). -/
def irfftDefaultLen (mc : ℕ) : ℕ := 2 * (mc - 1)

/-- Conjugating the standard character negates its argument. -/
lemma stdAddChar_conj {N : ℕ} [NeZero N] (b : ZMod N) :
    (starRingEnd ℂ) (ZMod.stdAddChar b) = ZMod.stdAddChar (-b) := by
  have hb : (((b.val : ℤ) : ℤ) : ZMod N) = b := by
    push_cast
    simp [ZMod.natCast_val, ZMod.cast_id]
  have hnb : ((-(b.val : ℤ) : ℤ) : ZMod N) = -b := by
    push_cast
    simp [ZMod.natCast_val, ZMod.cast_id]
  calc (starRingEnd ℂ) (ZMod.stdAddChar b)
      = (starRingEnd ℂ) (Complex.exp (2 * Real.pi * Complex.I * (b.val : ℤ) / N)) := by
        rw [← ZMod.stdAddChar_coe, hb]
    _ = Complex.exp ((starRingEnd ℂ) (2 * Real.pi * Complex.I * (b.val : ℤ) / N)) := by
        rw [Complex.exp_conj]
    _ = Complex.exp (2 * Real.pi * Complex.I * (-(b.val : ℤ) : ℤ) / N) := by
        congr 1
        simp only [map_div₀, map_mul, Complex.conj_I, Complex.conj_ofReal,
          map_intCast, map_natCast, map_ofNat]
        push_cast
        ring
    _ = ZMod.stdAddChar (-b) := by rw [← hnb, ZMod.stdAddChar_coe]

/-- Hermitian symmetry of the transform of a real input:
`fft x (-k) = conj (fft x k)`. -/
lemma fft1_real_neg {N : ℕ} [NeZero N] (x : ZMod N → ℝ) (k : ZMod N) :
    fft1 (fun j => (x j : ℂ)) (-k) = (starRingEnd ℂ) (fft1 (fun j => (x j : ℂ)) k) := by
  rw [fft1_apply_char, fft1_apply_char, map_sum]
  refine Finset.sum_congr rfl fun j _ => ?_
  rw [map_mul, stdAddChar_conj, Complex.conj_ofReal]
  congr 2
  ring

/-- The Hermitian extension of the stored half spectrum of a real input
recovers its full spectrum. -/
lemma hermBin_rfft1 {N : ℕ} [NeZero N] (x : ZMod N → ℝ) (k : ZMod N) :
    hermBin N (rfft1 x) k = fft1 (fun j => (x j : ℂ)) k := by
  unfold hermBin
  by_cases h : k.val ≤ N / 2
  · have h2 : k.val < N / 2 + 1 := by omega
    rw [dif_pos h, dif_pos h2]
    unfold rfft1
    congr 1
    exact ZMod.natCast_rightInverse k
  · have hk : k.val < N := k.val_lt
    have h3 : N - k.val < N / 2 + 1 := by omega
    rw [dif_neg h, dif_pos h3]
    unfold rfft1
    have hcast : ((N - k.val : ℕ) : ZMod N) = -k := by
      rw [Nat.cast_sub hk.le]
      simp [ZMod.natCast_rightInverse k, ZMod.natCast_self]
    rw [hcast, fft1_real_neg, Complex.conj_conj]

/-- 1-D real round trip: `irfft (rfft x)` with output length `N`
reproduces the real input exactly. -/
lemma irfft1_rfft1 {N : ℕ} [NeZero N] (x : ZMod N → ℝ) :
    irfft1 N (rfft1 x) = x := by
  funext m
  unfold irfft1
  have hext : hermBin N (rfft1 x) = fft1 fun j => (x j : ℂ) :=
    funext (hermBin_rfft1 x)
  rw [hext, ifft1_fft1]
  exact Complex.ofReal_re (x m)

/-- numpy `rfft2(w, axes=(-2,-1))`: `rfft` along the last axis, full
`fft` along the first (`w_to_wh`, `fluid.py` line 127). -/
noncomputable def rfft2 {nx ny : ℕ} [NeZero nx] [NeZero ny]
    (w : ZMod nx → ZMod ny → ℝ) (i : ZMod nx) (k : Fin (ny / 2 + 1)) : ℂ :=
  fft1 (fun i' => rfft1 (w i') k) i

/-- numpy `irfft2(W, axes=(-2,-1))` with output length `nout` on the last
axis: full `ifft` along the first axis, `irfft` along the last
(`wh_to_w`, `fluid.py` line 131, passes no length, so numpy uses
`irfftDefaultLen`). -/
noncomputable def irfft2 (nout : ℕ) [NeZero nout] {nx mc : ℕ} [NeZero nx]
    (W : ZMod nx → Fin mc → ℂ) (i : ZMod nx) (m : ZMod nout) : ℝ :=
  irfft1 nout (fun k => ifft1 (fun i' => W i' k) i) m

/-- Output shape of `wh_to_w` (i.e. `np.fft.irfft2` at its default output
length) on a spectral array of shape `(nx, ny/2 + 1)`. -/
def whToWShape (nx ny : ℕ) : ℕ × ℕ := (nx, irfftDefaultLen (nkOf ny))

/-- C2 (counterexample).  The claim asserts the round trip for *every*
real array of shape `(nx, ny)`.  For odd `ny` (here `(nx, ny) = (4, 3)`),
`w_to_wh` stores `nk = ny//2 + 1 = 2` bins and `wh_to_w` inverts at
numpy's default output length `2·(nk−1) = 2 ≠ 3`: the reconstruction has
shape `(4, 2)` and cannot reproduce the `(4, 3)` input. -/
theorem roundtrip_counterexample : whToWShape 4 3 ≠ (4, 3) := by decide

/-- C2 (amended: even `ny`).  For every real array `w` of shape
`(nx, ny)` with `ny` even, numpy's default inverse output length equals
`ny`, and `wh_to_w` after `w_to_wh` reproduces `w` exactly (in the exact
arithmetic modelling floating point). -/
theorem rfft2_roundtrip (nx ny : ℕ) [NeZero nx] [NeZero ny] (h : Even ny) :
    irfftDefaultLen (nkOf ny) = ny ∧
    ∀ w : ZMod nx → ZMod ny → ℝ, (fun i m => irfft2 ny (rfft2 w) i m) = w := by
  constructor
  · obtain ⟨r, rfl⟩ := h
    simp only [irfftDefaultLen, nkOf]
    omega
  · intro w
    funext i m
    unfold irfft2 rfft2
    have hcol : (fun k => ifft1 (fun i' => fft1 (fun i'' => rfft1 (w i'') k) i') i)
        = fun k => rfft1 (w i) k := by
      funext k
      exact congrFun (ifft1_fft1 fun i'' => rfft1 (w i'') k) i
    rw [hcol]
    exact congrFun (irfft1_rfft1 (w i)) m

/-- C2 witness: the amended statement instantiated at `nx = 1, ny = 4`. -/
theorem rfft2_roundtrip_witness :
    irfftDefaultLen (nkOf 4) = 4 ∧
    ∀ w : ZMod 1 → ZMod 4 → ℝ, (fun i m => irfft2 4 (rfft2 w) i m) = w :=
  rfft2_roundtrip 1 4 (by decide)

/-! ## Solver state (`fluid.py` class `Fluid`)

The solver's array algebra is shape consistent only on square grids
`nx = ny = n` (see `k2_shape_counterexample`), so the state-carrying
operations are embedded at a common grid size `n`.  On the unpadded
`(n, nk)` arrays the code relies on numpy's default `irfft2` output
length being `n`, which holds for even `n`; the embedding fixes that
output length to `n` explicitly. -/

/-- State of a `Fluid(n, n, Re)` instance: the scalar parameters of
`__init__` (lines 31-39) and the arrays mutated by the solver.  `w0`
holds the spectral field saved at the top of `update` (line 216; the
Python attribute is re-bound to the complex array `self.wh` there, and
its earlier real-valued contents are never read, so it is given the
spectral type). -/
structure Fluid (n : ℕ) where
  Re : ℝ
  ReI : ℝ
  dt : ℝ
  time : ℝ
  it : ℕ
  u : ZMod n → ZMod n → ℝ
  v : ZMod n → ZMod n → ℝ
  w : ZMod n → ZMod n → ℝ
  wh : ZMod n → Fin (n / 2 + 1) → ℂ
  psih : ZMod n → Fin (n / 2 + 1) → ℂ
  dwhdt : ZMod n → Fin (n / 2 + 1) → ℂ
  w0 : ZMod n → Fin (n / 2 + 1) → ℂ

/-- Physical grid node `x[m] = 2π·m/n`
(`np.linspace(0, 2π, n, endpoint=False)`, lines 42-43). -/
noncomputable def xg (n : ℕ) (m : ZMod n) : ℝ := 2 * Real.pi * m.val / n

/-- Grid spacing `dx = 2π/n` (the `retstep` of the same `linspace`). -/
noncomputable def dxOf (n : ℕ) : ℝ := 2 * Real.pi / n

/-- `k2` on the square grid, indexed by a row in `ZMod n` (the `ky`
axis) and a half-spectrum column in `Fin (n/2+1)` (the `kx[:nk]` axis). -/
def k2E (n : ℕ) (i : ZMod n) (j : Fin (n / 2 + 1)) : ℤ := k2val n n i.val j.val

/-- `w_to_wh` (line 127): `self.wh = np.fft.rfft2(self.w)`. -/
noncomputable def wToWh {n : ℕ} [NeZero n] (f : Fluid n) : Fluid n :=
  { f with wh := fun i k => rfft2 f.w i k }

/-- `wh_to_w` (line 131): `self.w = np.fft.irfft2(self.wh)` (output
length `n`, the numpy default for even `n`). -/
noncomputable def whToW {n : ℕ} [NeZero n] (f : Fluid n) : Fluid n :=
  { f with w := fun i m => irfft2 n f.wh i m }

/-- `init_solver` (lines 57-88): zeroes the spectral work arrays.  The
lazily cached grid data (`k2`, `fk`, `mx`, `mk`, `padder`, `fltr`) are
pure functions of `n` in this embedding, defined at top level; the
re-binding `self.w0 = self.w` (line 82) stores a value that is
overwritten at the top of every `update` before any read. -/
def initSolver {n : ℕ} (f : Fluid n) : Fluid n :=
  { f with wh := fun _ _ => 0, psih := fun _ _ => 0, dwhdt := fun _ _ => 0 }

/-- `_get_psih` (lines 238-244): `self.psih[self.fk] = self.wh[self.fk] /
self.k2[self.fk]` — a masked assignment that leaves entries outside the
mask (the zero wavenumber) untouched. -/
noncomputable def getPsih {n : ℕ} (f : Fluid n) : Fluid n :=
  { f with psih := fun i j =>
      if k2E n i j ≠ 0 then f.wh i j / (k2E n i j : ℂ) else f.psih i j }

/-- `get_u` (lines 138-143): `self.u = np.fft.irfft2(1j*self.ky[:,np.newaxis]*self.psih)`. -/
noncomputable def getU {n : ℕ} [NeZero n] (f : Fluid n) : Fluid n :=
  { f with u := irfft2 n (fun a b => Complex.I * (kfreq n a.val : ℂ) * f.psih a b) }

/-- `get_v` (lines 146-151): `self.v = -np.fft.irfft2(1j*self.kx[:self.nk]*self.psih)`. -/
noncomputable def getV {n : ℕ} [NeZero n] (f : Fluid n) : Fluid n :=
  { f with v := fun i m =>
      -(irfft2 n (fun a b => Complex.I * (kfreq n b.val : ℂ) * f.psih a b) i m) }

/-- `_add_diffusion` (lines 285-290): `self.dwhdt -= self.ReI*self.k2*self.wh`. -/
noncomputable def addDiffusion {n : ℕ} (f : Fluid n) : Fluid n :=
  { f with dwhdt := fun i j =>
      f.dwhdt i j - (f.ReI : ℂ) * (k2E n i j : ℂ) * f.wh i j }

/-- Convective stability bound (line 201):
`Dc = np.max(np.pi*((1.+abs(self.u))/self.dx + (1.+abs(self.v))/self.dy))`. -/
noncomputable def Dc {n : ℕ} [NeZero n] (f : Fluid n) : ℝ :=
  Finset.univ.sup' Finset.univ_nonempty fun p : ZMod n × ZMod n =>
    Real.pi * ((1 + |f.u p.1 p.2|) / dxOf n + (1 + |f.v p.1 p.2|) / dxOf n)

/-- Diffusive stability bound (line 202):
`Dmu = np.max(np.pi**2*(self.dx**(-2) + self.dy**(-2)))` — `np.max` of a
scalar, i.e. the grid-wide constant itself (`dy = dx` on the square grid). -/
noncomputable def Dmu (n : ℕ) : ℝ :=
  Real.pi ^ 2 * (dxOf n ^ (-2 : ℤ) + dxOf n ^ (-2 : ℤ))

/-- `_cfl_limit` (lines 195-203): recompute `u`, `v` from the current
stream function, then `self.dt = np.sqrt(3.) / (Dc + Dmu)`. -/
noncomputable def cflLimit {n : ℕ} [NeZero n] (f : Fluid n) : Fluid n :=
  let f1 := getV (getU f)
  { f1 with dt := Real.sqrt 3 / (Dc f1 + Dmu n) }

/-! ## Dealiased convection (`fluid.py` lines 247-282)

Padding constants from `init_solver` (lines 72-79) with the default pad
factor `pad = 3/2`: `mx = int(1.5·nx)`, `mk = int(1.5·nk)`, and the
boolean row mask `padder` (`True` outside `[nx/2, nx)`).  The source
assigns the `n` rows of an `(n, nk)` array to the `True` rows of the
padded array in order; for odd `n` the mask has only `n - 1` `True`
rows and numpy raises a shape error, so the solver only runs on even
grids — the embedding's total scatter function is exercised by the
claims on the same states the code can reach. -/

/-- `mx = int(self.pad * self.nx)` with `pad = 3/2` (line 73). -/
def mxOf (n : ℕ) : ℕ := 3 * n / 2

/-- `mk = int(self.pad * self.nk)` with `pad = 3/2` (line 74). -/
def mkOf (n : ℕ) : ℕ := 3 * nkOf n / 2

/-- Last-axis length of `np.fft.irfft2` applied to the `(mx, mk)` padded
buffers (numpy default, no explicit length given at lines 274-277). -/
def padOutLen (n : ℕ) : ℕ := irfftDefaultLen (mkOf n)

/-- The row mask `self.padder` (lines 78-79): `True` everywhere except
on `[int(nx/2), int(nx*(pad-0.5))) = [n/2, n)`. -/
def padderTrue (n m : ℕ) : Prop := m < n / 2 ∨ n ≤ m

instance (n m : ℕ) : Decidable (padderTrue n m) := by
  unfold padderTrue; infer_instance

/-- Padded-array row receiving source row `r` under the fancy-indexing
assignment `buf[self.padder, :self.nk] = A`: the `r`-th `True` index of
`padder`, i.e. `r` itself for `r < n/2` and `r + (n - n/2)` for the
mirrored negative-wavenumber block. -/
def scatterRow (n r : ℕ) : ℕ := if r < n / 2 then r else r + (n - n / 2)

/-- Zero-padding scatter (lines 263-271): place the `(n, nk)` array `A`
at the `padder` rows and the first `nk` columns of an `(mx, mk)` zero
buffer. -/
def padScatter (n : ℕ) (A : ZMod n → Fin (nkOf n) → ℂ)
    (p : ZMod (mxOf n)) (q : Fin (mkOf n)) : ℂ :=
  if hq : q.val < nkOf n then
    if p.val < n / 2 then A ((p.val : ZMod n)) ⟨q.val, hq⟩
    else if n ≤ p.val then A (((p.val - (n - n / 2) : ℕ) : ZMod n)) ⟨q.val, hq⟩
    else 0
  else 0

lemma nk_le_padHalf (n : ℕ) : nkOf n ≤ padOutLen n / 2 + 1 := by
  unfold padOutLen irfftDefaultLen mkOf nkOf
  omega

/-- The convective term (`_add_convection`, lines 247-282): build the
four spectral derivative fields, zero-pad them, inverse-transform on the
enlarged grid, form `j1*j2 - j3*j4` pointwise, forward-transform, then
truncate back through the `padder` rows / first `nk` columns and rescale
by `pad² = (3/2)²`. -/
noncomputable def convTerm (n : ℕ) [NeZero n] [NeZero (mxOf n)] [NeZero (padOutLen n)]
    (psih wh : ZMod n → Fin (nkOf n) → ℂ) (i : ZMod n) (j : Fin (nkOf n)) : ℂ :=
  let j1f := padScatter n fun a b => Complex.I * (kfreq n b.val : ℂ) * psih a b
  let j2f := padScatter n fun a b => Complex.I * (kfreq n a.val : ℂ) * wh a b
  let j3f := padScatter n fun a b => Complex.I * (kfreq n a.val : ℂ) * psih a b
  let j4f := padScatter n fun a b => Complex.I * (kfreq n b.val : ℂ) * wh a b
  let j1 := irfft2 (padOutLen n) j1f
  let j2 := irfft2 (padOutLen n) j2f
  let j3 := irfft2 (padOutLen n) j3f
  let j4 := irfft2 (padOutLen n) j4f
  let jacpf := rfft2 fun p m => j1 p m * j2 p m - j3 p m * j4 p m
  jacpf ((scatterRow n i.val : ZMod (mxOf n)))
      ⟨j.val, lt_of_lt_of_le j.isLt (nk_le_padHalf n)⟩ * ((3 : ℂ) / 2) ^ 2

/-- `_add_convection` as a state transformer: `self.dwhdt[:, :] = …`
overwrites the accumulator (line 282). -/
noncomputable def addConvection {n : ℕ} [NeZero n] [NeZero (mxOf n)]
    [NeZero (padOutLen n)] (f : Fluid n) : Fluid n :=
  { f with dwhdt := fun i j => convTerm n f.psih f.wh i j }

/-! ## Time integration (`fluid.py` lines 206-235) -/

/-- One Runge-Kutta substage of `update` (lines 219-231): Poisson
inversion, convection (resetting the accumulator), diffusion, then
`self.wh = self.w0 + (self.dt/k) * self.dwhdt`. -/
noncomputable def stage {n : ℕ} [NeZero n] [NeZero (mxOf n)] [NeZero (padOutLen n)]
    (f : Fluid n) (k : ℕ) : Fluid n :=
  let f1 := getPsih f
  let f2 := addConvection f1
  let f3 := addDiffusion f2
  { f3 with wh := fun a b => f3.w0 a b + ((f3.dt / k : ℝ) : ℂ) * f3.dwhdt a b }

/-- `range(s, 0, -1) = [s, s-1, …, 1]` (line 219). -/
def rkRange (s : ℕ) : List ℕ := (List.range s).map fun m => s - m

/-- `update` (lines 206-235): save `w0`, run the substages, advance
`time` and the step counter, then recompute `dt` from the CFL bound. -/
noncomputable def update {n : ℕ} [NeZero n] [NeZero (mxOf n)] [NeZero (padOutLen n)]
    (s : ℕ) (f : Fluid n) : Fluid n :=
  let f0 := { f with w0 := f.wh }
  let g := (rkRange s).foldl stage f0
  let g1 := { g with time := g.time + g.dt, it := g.it + 1 }
  cflLimit g1

/-! ## Named initial conditions (`fluid.py` lines 91-123) -/

/-- Python exception kinds reachable from `init_field`, together with the
`UnsupportedFieldKind` error of the specification's error taxonomy.
Modelled from the spec: `UnsupportedFieldKind` appears only in §7 of the
specification; the source defines no such exception class. -/
inductive PyError where
  | typeError
  | zeroDivisionError
  | unsupportedFieldKind
deriving DecidableEq

/-- Number of `%` conversion specifiers in a Python format string (none
of the solver's literals contain `%%` escapes, so counting `%`
characters is exact here). -/
def specCount (s : String) : ℕ := s.toList.count (Char.ofNat 37)

/-- Python's `str % args` applied to `nargs` arguments: raises
`TypeError` (*"not all arguments converted during string formatting"*)
when the argument count does not match the number of conversion
specifiers. -/
def pyStrFormat (fmt : String) (nargs : ℕ) : Except PyError Unit :=
  if specCount fmt = nargs then .ok () else .error .typeError

/-- The second string literal of lines 115-116.  Because `%` binds
tighter than `+`, the diagnostic expression
`print("The specified field type %s is unknown…" + ": …" % field)`
applies `% field` to this literal — which contains no conversion
specifier. -/
def diagFmt : String := ": \"Taylor-Green\", \"Shear Layer\"."

/-- `init_field` (lines 91-123), restricted to the `type(field) == str`
branch.  `mcw` injects the realization drawn by the stochastic
`McWilliams1984` path (lines 154-181, the solver's only entropy source);
no claim depends on its value.  The Taylor-Green branch divides the
Python scalar `-2*kappa**2*t` by `self.Re` inside `np.exp`, which raises
`ZeroDivisionError` whenever `Re == 0`; the unknown-name branch
evaluates the malformed diagnostic format expression, raising
`TypeError` before anything is printed or assigned.  A branch that does
not raise falls through to `self.w_to_wh()` (line 123). -/
noncomputable def initField {n : ℕ} [NeZero n] (field : String)
    (t kappa delta sigma : ℝ) (mcw : ZMod n → ZMod n → ℝ)
    (f : Fluid n) : Except PyError (Fluid n) :=
  if field = "TG" ∨ field = "Taylor-Green" then
    if f.Re = 0 then .error .zeroDivisionError
    else
      let wTG : ZMod n → ZMod n → ℝ := fun i j =>
        2 * kappa * Real.cos (kappa * xg n j) * Real.cos (kappa * xg n i) *
          Real.exp (-2 * kappa ^ 2 * t / f.Re)
      .ok (wToWh { f with w := wTG })
  else if field = "SL" ∨ field = "Shear Layer" then
    let wSL : ZMod n → ZMod n → ℝ := fun i j =>
      (delta * Real.cos (xg n j)
          - sigma * Real.cosh (sigma * (xg n i - 0.5 * Real.pi)) ^ (-2 : ℤ))
        + (delta * Real.cos (xg n j)
          + sigma * Real.cosh (sigma * (1.5 * Real.pi - xg n i)) ^ (-2 : ℤ))
    .ok (wToWh { f with w := wSL })
  else if field = "McWilliams" ∨ field = "MW84" then
    .ok (wToWh { f with w := mcw })
  else
    match pyStrFormat diagFmt 1 with
    | .error e => .error e
    | .ok _ => .ok (wToWh f)

/-! ## Spectral filter (`fluid.py` lines 184-192) -/

/-- `np.max(self.kx)`: the largest wavenumber on the full axis. -/
def kxMax (n : ℕ) [NeZero n] : ℤ :=
  Finset.univ.sup' Finset.univ_nonempty fun m : ZMod n => kfreq n m.val

/-- Filter cutoff `cphi = 0.65*np.max(self.kx)` (line 188). -/
noncomputable def cphi (n : ℕ) [NeZero n] : ℝ := 0.65 * (kxMax n : ℝ)

/-- `_init_filter` (lines 184-192): `filtr = exp(-filterfac·(wvx−cphi)⁴)`
with `wvx = sqrt(k2)` and `filterfac = 23.6` (line 39), overwritten with
exactly `1` wherever `wvx <= cphi` (line 191). -/
noncomputable def fltr (n : ℕ) [NeZero n] (i : ZMod n) (j : Fin (n / 2 + 1)) : ℝ :=
  if Real.sqrt ((k2E n i j : ℤ) : ℝ) ≤ cphi n then 1
  else Real.exp (-23.6 * (Real.sqrt ((k2E n i j : ℤ) : ℝ) - cphi n) ^ 4)

/-! ## Concrete states for witnesses -/

instance : NeZero (mxOf 4) := ⟨by decide⟩

instance : NeZero (padOutLen 4) := ⟨by decide⟩

/-- A concrete `Fluid(4, 4, 1.)` state right after construction and
`init_solver` (all arrays zero, default `dt = 0.0001`). -/
noncomputable def sampleFluid : Fluid 4 :=
  { Re := 1, ReI := 1, dt := 1 / 10000, time := 0, it := 0,
    u := fun _ _ => 0, v := fun _ _ => 0, w := fun _ _ => 0,
    wh := fun _ _ => 0, psih := fun _ _ => 0, dwhdt := fun _ _ => 0,
    w0 := fun _ _ => 0 }

/-- `sampleFluid` with the inviscid sentinel `Re = 0` (cf. `__init__`
lines 33-34: `ReI` stays `0` when `Re == 0`). -/
noncomputable def inviscidFluid : Fluid 4 :=
  { sampleFluid with Re := 0, ReI := 0 }

/-! ## C3: Poisson inversion -/

/-- C3: after `init_solver` the stream-function array is identically
zero, and `_get_psih` produces `psih = wh / k2` elementwise at every
mode where `k2 ≠ 0` while leaving the zero-wavenumber entry — excluded
by the mask `fk` — untouched, hence exactly zero for every state whose
zero mode is zero (as established by `init_solver` and preserved by
every solver operation). -/
theorem getPsih_spec (n : ℕ) [NeZero n] (f g : Fluid n)
    (hp : f.psih 0 0 = 0) :
    ((initSolver g).psih = fun _ _ => 0) ∧
    (∀ i j, k2E n i j ≠ 0 →
      (getPsih f).psih i j = f.wh i j / (k2E n i j : ℂ)) ∧
    (getPsih f).psih 0 0 = 0 := by
  refine ⟨rfl, ?_, ?_⟩
  · intro i j hk
    simp only [getPsih, ne_eq, ite_not]
    rw [if_neg hk]
  · have hz : k2E n 0 0 = 0 := by
      simp only [k2E, k2val, ZMod.val_zero, Fin.val_zero, kfreq]
      have h2 : 0 < (n + 1) / 2 := by
        have := NeZero.ne n
        omega
      rw [if_pos h2]
      ring
    simp only [getPsih, ne_eq, ite_not]
    rw [if_pos (by simp [hz]), hp]

/-- C3 witness: the freshly initialized `4 × 4` solver state. -/
theorem getPsih_spec_witness :
    ((initSolver sampleFluid).psih = fun _ _ => 0) ∧
    (∀ i j, k2E 4 i j ≠ 0 →
      (getPsih sampleFluid).psih i j = sampleFluid.wh i j / (k2E 4 i j : ℂ)) ∧
    (getPsih sampleFluid).psih 0 0 = 0 :=
  getPsih_spec 4 sampleFluid sampleFluid rfl

/-! ## C5: convection resets the accumulator -/

/-- C5: `_add_convection` overwrites `dwhdt` with the freshly computed
convection value — the result is independent of the accumulator's prior
contents, and equals the forward transform of the pointwise product
`j1·j2 − j3·j4` of the padded inverse-transformed derivative fields,
truncated through the `padder` rows and the first `nk` columns and
rescaled by `pad² = (3/2)²`. -/
theorem addConvection_spec (n : ℕ) [NeZero n] [NeZero (mxOf n)]
    [NeZero (padOutLen n)] (f : Fluid n) (d : ZMod n → Fin (n / 2 + 1) → ℂ) :
    (addConvection { f with dwhdt := d }).dwhdt = (addConvection f).dwhdt ∧
    (addConvection f).dwhdt = fun i j =>
      (rfft2 fun p m =>
          irfft2 (padOutLen n)
              (padScatter n fun a b => Complex.I * (kfreq n b.val : ℂ) * f.psih a b) p m *
            irfft2 (padOutLen n)
              (padScatter n fun a b => Complex.I * (kfreq n a.val : ℂ) * f.wh a b) p m -
          irfft2 (padOutLen n)
              (padScatter n fun a b => Complex.I * (kfreq n a.val : ℂ) * f.psih a b) p m *
            irfft2 (padOutLen n)
              (padScatter n fun a b => Complex.I * (kfreq n b.val : ℂ) * f.wh a b) p m)
        ((scatterRow n i.val : ZMod (mxOf n)))
        ⟨j.val, lt_of_lt_of_le j.isLt (nk_le_padHalf n)⟩ * ((3 : ℂ) / 2) ^ 2 :=
  ⟨rfl, rfl⟩

/-- C5 witness: the `4 × 4` state with a nonzero prior accumulator. -/
theorem addConvection_spec_witness :
    (addConvection { sampleFluid with dwhdt := fun _ _ => 1 }).dwhdt
        = (addConvection sampleFluid).dwhdt ∧
    (addConvection sampleFluid).dwhdt = fun i j =>
      (rfft2 fun p m =>
          irfft2 (padOutLen 4)
              (padScatter 4 fun a b => Complex.I * (kfreq 4 b.val : ℂ) * sampleFluid.psih a b) p m *
            irfft2 (padOutLen 4)
              (padScatter 4 fun a b => Complex.I * (kfreq 4 a.val : ℂ) * sampleFluid.wh a b) p m -
          irfft2 (padOutLen 4)
              (padScatter 4 fun a b => Complex.I * (kfreq 4 a.val : ℂ) * sampleFluid.psih a b) p m *
            irfft2 (padOutLen 4)
              (padScatter 4 fun a b => Complex.I * (kfreq 4 b.val : ℂ) * sampleFluid.wh a b) p m)
        ((scatterRow 4 i.val : ZMod (mxOf 4)))
        ⟨j.val, lt_of_lt_of_le j.isLt (nk_le_padHalf 4)⟩ * ((3 : ℂ) / 2) ^ 2 :=
  addConvection_spec 4 sampleFluid fun _ _ => 1

/-! ## C6: CFL adaptive step -/

/-- C6: `_cfl_limit` sets `dt = sqrt 3 / (Dc + Dmu)`, where `Dc` is the
grid maximum of `π·((1+|u|)/dx + (1+|v|)/dy)` with `u`, `v` the inverse
transforms of the spectral derivatives of the current `psih`, and
`Dmu = π²·(dx⁻² + dy⁻²)` is a grid-wide constant; the resulting `dt`
does not depend on the viscosity coefficient (`Re` / `ReI`). -/
theorem cflLimit_spec (n : ℕ) [NeZero n] (f : Fluid n) (r ri : ℝ) :
    (cflLimit f).dt = Real.sqrt 3 /
      ((Finset.univ.sup' Finset.univ_nonempty fun p : ZMod n × ZMod n =>
          Real.pi *
            ((1 + |irfft2 n (fun a b => Complex.I * (kfreq n a.val : ℂ) * f.psih a b) p.1 p.2|)
                / dxOf n +
              (1 + |(-(irfft2 n (fun a b => Complex.I * (kfreq n b.val : ℂ) * f.psih a b) p.1 p.2))|)
                / dxOf n)) +
        Real.pi ^ 2 * (dxOf n ^ (-2 : ℤ) + dxOf n ^ (-2 : ℤ))) ∧
    (cflLimit { f with Re := r, ReI := ri }).dt = (cflLimit f).dt :=
  ⟨rfl, rfl⟩

/-- C6 witness: the `4 × 4` state, with the viscosity coefficients
replaced by `2` and `3`. -/
theorem cflLimit_spec_witness :
    (cflLimit sampleFluid).dt = Real.sqrt 3 /
      ((Finset.univ.sup' Finset.univ_nonempty fun p : ZMod 4 × ZMod 4 =>
          Real.pi *
            ((1 + |irfft2 4 (fun a b => Complex.I * (kfreq 4 a.val : ℂ) * sampleFluid.psih a b) p.1 p.2|)
                / dxOf 4 +
              (1 + |(-(irfft2 4 (fun a b => Complex.I * (kfreq 4 b.val : ℂ) * sampleFluid.psih a b) p.1 p.2))|)
                / dxOf 4)) +
        Real.pi ^ 2 * (dxOf 4 ^ (-2 : ℤ) + dxOf 4 ^ (-2 : ℤ))) ∧
    (cflLimit { sampleFluid with Re := 2, ReI := 3 }).dt = (cflLimit sampleFluid).dt :=
  cflLimit_spec 4 sampleFluid 2 3

/-! ## C4: time-step semantics -/

/-- The substage semantics as the claim states it: from the state reached
so far, recompute the stream function from the *current* `wh`, set the
accumulator to the convection term plus the diffusion term, and assign
`wh := w0 + (dt/k) · accumulator` — with `w0` and `dt` the values held at
the entry of `update`, passed in explicitly. -/
noncomputable def stageSpec {n : ℕ} [NeZero n] [NeZero (mxOf n)] [NeZero (padOutLen n)]
    (w0 : ZMod n → Fin (n / 2 + 1) → ℂ) (dt : ℝ) (f : Fluid n) (k : ℕ) : Fluid n :=
  let p := fun i j => if k2E n i j ≠ 0 then f.wh i j / (k2E n i j : ℂ) else f.psih i j
  let a := fun i j => convTerm n p f.wh i j - (f.ReI : ℂ) * (k2E n i j : ℂ) * f.wh i j
  { f with
      psih := p
      dwhdt := a
      wh := fun i j => w0 i j + ((dt / k : ℝ) : ℂ) * a i j }

lemma stage_eq_stageSpec {n : ℕ} [NeZero n] [NeZero (mxOf n)] [NeZero (padOutLen n)]
    (f : Fluid n) (k : ℕ) : stage f k = stageSpec f.w0 f.dt f k := rfl

lemma foldl_stageSpec_time {n : ℕ} [NeZero n] [NeZero (mxOf n)] [NeZero (padOutLen n)]
    (w0 : ZMod n → Fin (n / 2 + 1) → ℂ) (dt : ℝ) (l : List ℕ) (f : Fluid n) :
    (l.foldl (stageSpec w0 dt) f).time = f.time := by
  induction l generalizing f with
  | nil => rfl
  | cons k l ih => exact ih (stageSpec w0 dt f k)

lemma foldl_stageSpec_it {n : ℕ} [NeZero n] [NeZero (mxOf n)] [NeZero (padOutLen n)]
    (w0 : ZMod n → Fin (n / 2 + 1) → ℂ) (dt : ℝ) (l : List ℕ) (f : Fluid n) :
    (l.foldl (stageSpec w0 dt) f).it = f.it := by
  induction l generalizing f with
  | nil => rfl
  | cons k l ih => exact ih (stageSpec w0 dt f k)

lemma foldl_stageSpec_dt {n : ℕ} [NeZero n] [NeZero (mxOf n)] [NeZero (padOutLen n)]
    (w0 : ZMod n → Fin (n / 2 + 1) → ℂ) (dt : ℝ) (l : List ℕ) (f : Fluid n) :
    (l.foldl (stageSpec w0 dt) f).dt = f.dt := by
  induction l generalizing f with
  | nil => rfl
  | cons k l ih => exact ih (stageSpec w0 dt f k)

/-- The source loop (which reads `self.w0` and `self.dt` from the state
each substage) computes `stageSpec` at the entry values: the stages
modify neither `w0` nor `dt`. -/
lemma foldl_stage_eq_spec {n : ℕ} [NeZero n] [NeZero (mxOf n)] [NeZero (padOutLen n)]
    (l : List ℕ) (f : Fluid n) :
    l.foldl stage f = l.foldl (stageSpec f.w0 f.dt) f := by
  induction l generalizing f with
  | nil => rfl
  | cons k l ih =>
    simp only [List.foldl_cons]
    rw [stage_eq_stageSpec, ih (stageSpec f.w0 f.dt f k)]
    have hw : (stageSpec f.w0 f.dt f k).w0 = f.w0 := rfl
    have hd : (stageSpec f.w0 f.dt f k).dt = f.dt := rfl
    rw [hw, hd]

/-- C4: every call `update s` (for any `s`, in particular `s ≥ 1`) saves
`w0` as the entry `wh`, folds the substages `k = s, …, 1` — each one
recomputing `psih` from the current `wh`, resetting the accumulator to
convection plus diffusion, and assigning `wh := w0 + (dt/k)·accumulator`
with the *entry* values of `w0` and `dt` — then advances `time` by
exactly the entry `dt`, increments the step counter by `1`, and only
afterwards recomputes `dt` from the CFL estimate on the post-loop
state. -/
theorem update_spec (n : ℕ) [NeZero n] [NeZero (mxOf n)] [NeZero (padOutLen n)]
    (s : ℕ) (f : Fluid n) :
    update s f =
      cflLimit
        { (rkRange s).foldl (stageSpec f.wh f.dt) { f with w0 := f.wh } with
          time := f.time + f.dt, it := f.it + 1 } ∧
    (update s f).time = f.time + f.dt ∧
    (update s f).it = f.it + 1 ∧
    rkRange 3 = [3, 2, 1] := by
  have hfold : (rkRange s).foldl stage { f with w0 := f.wh }
      = (rkRange s).foldl (stageSpec f.wh f.dt) { f with w0 := f.wh } :=
    foldl_stage_eq_spec (rkRange s) { f with w0 := f.wh }
  have hmain : update s f =
      cflLimit
        { (rkRange s).foldl stage { f with w0 := f.wh } with
          time := ((rkRange s).foldl stage { f with w0 := f.wh }).time
            + ((rkRange s).foldl stage { f with w0 := f.wh }).dt
          it := ((rkRange s).foldl stage { f with w0 := f.wh }).it + 1 } := rfl
  rw [hfold] at hmain
  rw [foldl_stageSpec_time, foldl_stageSpec_dt, foldl_stageSpec_it] at hmain
  refine ⟨?_, ?_, ?_, by decide⟩
  · exact hmain
  · rw [hmain]
    rfl
  · rw [hmain]
    rfl

/-- C4 witness: `update(3)` on the `4 × 4` state. -/
theorem update_spec_witness :
    update 3 sampleFluid =
      cflLimit
        { (rkRange 3).foldl (stageSpec sampleFluid.wh sampleFluid.dt)
            { sampleFluid with w0 := sampleFluid.wh } with
          time := sampleFluid.time + sampleFluid.dt, it := sampleFluid.it + 1 } ∧
    (update 3 sampleFluid).time = sampleFluid.time + sampleFluid.dt ∧
    (update 3 sampleFluid).it = sampleFluid.it + 1 ∧
    rkRange 3 = [3, 2, 1] :=
  update_spec 4 3 sampleFluid

/-! ## C8: spectral filter invariant -/

/-- C8: at every half-spectrum mode the cached filter satisfies
`0 ≤ fltr ≤ 1`; it equals `1` wherever the wavenumber magnitude
`sqrt k2` is at or below the cutoff `cphi = 0.65·max kx`; and above the
cutoff it is monotonically non-increasing in the wavenumber magnitude. -/
theorem fltr_spec (n : ℕ) [NeZero n] :
    (∀ i j, 0 ≤ fltr n i j ∧ fltr n i j ≤ 1) ∧
    (∀ i j, Real.sqrt ((k2E n i j : ℤ) : ℝ) ≤ cphi n → fltr n i j = 1) ∧
    (∀ i j p q, cphi n ≤ Real.sqrt ((k2E n i j : ℤ) : ℝ) →
      Real.sqrt ((k2E n i j : ℤ) : ℝ) ≤ Real.sqrt ((k2E n p q : ℤ) : ℝ) →
      fltr n p q ≤ fltr n i j) := by
  have hb : ∀ i j, 0 ≤ fltr n i j ∧ fltr n i j ≤ 1 := by
    intro i j
    unfold fltr
    split
    · norm_num
    · refine ⟨(Real.exp_pos _).le, ?_⟩
      rw [Real.exp_le_one_iff]
      have h4 : (0 : ℝ) ≤ (Real.sqrt ((k2E n i j : ℤ) : ℝ) - cphi n) ^ 4 := by positivity
      nlinarith
  refine ⟨hb, ?_, ?_⟩
  · intro i j h
    unfold fltr
    rw [if_pos h]
  · intro i j p q h1 h2
    by_cases ha : Real.sqrt ((k2E n i j : ℤ) : ℝ) ≤ cphi n
    · have : fltr n i j = 1 := by
        unfold fltr
        rw [if_pos ha]
      rw [this]
      exact (hb p q).2
    · push_neg at ha
      have hq : ¬ Real.sqrt ((k2E n p q : ℤ) : ℝ) ≤ cphi n := by
        push_neg
        exact lt_of_lt_of_le ha h2
      unfold fltr
      rw [if_neg (not_le.mpr ha), if_neg hq]
      rw [Real.exp_le_exp]
      have hpow : (Real.sqrt ((k2E n i j : ℤ) : ℝ) - cphi n) ^ 4
          ≤ (Real.sqrt ((k2E n p q : ℤ) : ℝ) - cphi n) ^ 4 :=
        pow_le_pow_left₀ (by linarith) (by linarith) 4
      nlinarith

/-- C8 witness: on the `4 × 4` grid (`max kx = 1`, `cphi = 0.65`), the
zero mode lies below the cutoff and the filter is `1` there, and the
mode with `k2 = 1` lies above the cutoff where monotonicity applies. -/
theorem fltr_spec_witness :
    Real.sqrt ((k2E 4 0 0 : ℤ) : ℝ) ≤ cphi 4 ∧ fltr 4 0 0 = 1 ∧
    cphi 4 ≤ Real.sqrt ((k2E 4 0 1 : ℤ) : ℝ) ∧ fltr 4 0 1 ≤ fltr 4 0 1 := by
  have hkx : kxMax 4 = 1 := by decide
  have hk0 : k2E 4 0 0 = 0 := by decide
  have hk1 : k2E 4 0 1 = 1 := by decide
  have h0 : Real.sqrt ((k2E 4 0 0 : ℤ) : ℝ) ≤ cphi 4 := by
    unfold cphi
    rw [hkx, hk0]
    norm_num
  have h1 : cphi 4 ≤ Real.sqrt ((k2E 4 0 1 : ℤ) : ℝ) := by
    unfold cphi
    rw [hkx, hk1]
    push_cast
    rw [Real.sqrt_one]
    norm_num
  exact ⟨h0, (fltr_spec 4).2.1 0 0 h0, h1, (fltr_spec 4).2.2 0 1 0 1 h1 le_rfl⟩

/-! ## C9: unknown field kind -/

/-- C9 (counterexample).  Requesting the unrecognized field name
`"vortex"` does not raise `UnsupportedFieldKind`: it raises `TypeError`,
because the diagnostic `print` at lines 115-116 applies `%` to a string
literal with no conversion specifier (and `%` binds tighter than `+`),
which fails before anything is printed or any state is assigned. -/
theorem initField_unknown_counterexample :
    initField "vortex" 0 2 (1 / 200) (15 / Real.pi) (fun _ _ => 0) sampleFluid
        = Except.error PyError.typeError ∧
    initField "vortex" 0 2 (1 / 200) (15 / Real.pi) (fun _ _ => 0) sampleFluid
        ≠ Except.error PyError.unsupportedFieldKind := by
  have h : initField "vortex" 0 2 (1 / 200) (15 / Real.pi) (fun _ _ => 0) sampleFluid
      = Except.error PyError.typeError := by
    unfold initField
    rw [if_neg (by decide), if_neg (by decide), if_neg (by decide)]
    unfold pyStrFormat
    rw [if_neg (by decide)]
  refine ⟨h, ?_⟩
  rw [h]
  intro hc
  exact absurd (Except.error.inj hc) (by decide)

/-- C9 (amended).  For every string field name outside the recognized
set (`TG`/`Taylor-Green`, `SL`/`Shear Layer`, `McWilliams`/`MW84`),
`init_field` raises `TypeError` — from the malformed diagnostic format
expression — rather than `UnsupportedFieldKind`; the exception
propagates before any assignment, leaving prior state unchanged. -/
theorem initField_unknown_spec (n : ℕ) [NeZero n] (field : String)
    (t kappa delta sigma : ℝ) (mcw : ZMod n → ZMod n → ℝ) (f : Fluid n)
    (h1 : field ≠ "TG") (h2 : field ≠ "Taylor-Green") (h3 : field ≠ "SL")
    (h4 : field ≠ "Shear Layer") (h5 : field ≠ "McWilliams") (h6 : field ≠ "MW84") :
    initField field t kappa delta sigma mcw f = Except.error PyError.typeError := by
  unfold initField
  rw [if_neg (by tauto), if_neg (by tauto), if_neg (by tauto)]
  unfold pyStrFormat
  rw [if_neg (by decide)]

/-- C9 witness: the unknown name `"SLX"` on the `4 × 4` state. -/
theorem initField_unknown_spec_witness :
    initField "SLX" 0 2 (1 / 200) (15 / Real.pi) (fun _ _ => 0) sampleFluid
      = Except.error PyError.typeError :=
  initField_unknown_spec 4 "SLX" 0 2 (1 / 200) (15 / Real.pi) (fun _ _ => 0) sampleFluid
    (by decide) (by decide) (by decide) (by decide) (by decide) (by decide)

/-! ## C10: inviscid Taylor-Green is unreachable -/

/-- C10: for every fluid with the inviscid sentinel `Re = 0` and every
time parameter `t` (and any `kappa`), requesting the Taylor-Green
initial condition (either name) raises `ZeroDivisionError`: the decay
factor `np.exp(-2*kappa**2*t/self.Re)` divides the Python scalar by
`self.Re` with no guard on this path. -/
theorem initField_TG_inviscid (n : ℕ) [NeZero n] (t kappa delta sigma : ℝ)
    (mcw : ZMod n → ZMod n → ℝ) (f : Fluid n) (hRe : f.Re = 0) :
    initField "TG" t kappa delta sigma mcw f
        = Except.error PyError.zeroDivisionError ∧
    initField "Taylor-Green" t kappa delta sigma mcw f
        = Except.error PyError.zeroDivisionError := by
  constructor <;>
  · unfold initField
    rw [if_pos (by decide), if_pos hRe]

/-- C10 witness: the inviscid `4 × 4` state at `t = 0`, `kappa = 2`. -/
theorem initField_TG_inviscid_witness :
    initField "TG" 0 2 (1 / 200) (15 / Real.pi) (fun _ _ => 0) inviscidFluid
        = Except.error PyError.zeroDivisionError ∧
    initField "Taylor-Green" 0 2 (1 / 200) (15 / Real.pi) (fun _ _ => 0) inviscidFluid
        = Except.error PyError.zeroDivisionError :=
  initField_TG_inviscid 4 0 2 (1 / 200) (15 / Real.pi) (fun _ _ => 0) inviscidFluid rfl

end Turb2D
